import Mathlib

/-!
Verification of the CODY distributed conjugate-gradient core.

This file gives a shallow embedding of the parts of the repository that the
verified properties refer to, and proves (or refutes) each property against
that embedding:

* the symmetric Gauss-Seidel smoother of lgncg (comp-symgs.h):
  row updates, sweep order, and the launch-domain volume check;
* the LogicalArray partition operations (LegionArrays.hpp);
* the residual inf-norm kernel and its max all-reduce (ComputeResidual.hpp);
* the CG driver loop (CG.hpp), including its timing buckets;
* the Item constructor sanity check (LegionItems.hpp) together with
  offsetsAreDense (LegionStuff.hpp).

Machine reals (double) are embedded as exact rationals; the square root
applied by the deferred-scalar machinery (FMO_SQRT) is kept as an abstract
function parameter since none of the verified properties depend on its value.
Vector kernels whose implementations live outside the provided sources
(ComputeWAXPBY, ComputeDotProduct, ComputeSPMV, ComputeMG, allReduce, mytimer)
are modelled from the specification, as indicated on their doc comments.
-/

namespace Cody

/-- Vectors are total maps from (global) indices to exact scalars. -/
abbrev Vec := ℕ → ℚ

/-! ## Symmetric Gauss-Seidel (src/legion/lgncg/src/comp-symgs.h)

The task body of symgsTask works on flat arrays:
avp (matrix values, row-major with stride nCols), aip (packed column
indices), azp (per-row nonzero count), adp (cached diagonal), and rp (the
right-hand side).  x is the full unknown vector. -/

/-- Inputs of one symgsTask point task: the flat arrays named as in the
source (avp, aip, azp, adp, rp), the row stride nCols and the local row
count lNRows. -/
structure SymgsIn where
  nCols : ℕ
  nRows : ℕ
  avp : ℕ → ℚ
  aip : ℕ → ℕ
  azp : ℕ → ℕ
  adp : ℕ → ℚ
  rp : ℕ → ℚ

/-- One row update of symgsTask: sum = rp[i]; subtract every stored
contribution cVals[j] * xp[cIndx[j]] for j < cnnz; add back xp[i] * curDiag;
store sum / curDiag into xp[i]. -/
def rowUpdate (s : SymgsIn) (x : Vec) (i : ℕ) : Vec :=
  let sum0 : ℚ :=
    s.rp i -
      Finset.sum (Finset.range (s.azp i))
        (fun j => s.avp (i * s.nCols + j) * x (s.aip (i * s.nCols + j)))
  let sum1 : ℚ := sum0 + x i * s.adp i
  fun t => if t = i then sum1 / s.adp i else x t

/-- State of the forward sweep after the first k rows (0, 1, ..., k-1) have
been processed in increasing order, each row reading the x left by the
previous rows. -/
def fwdSweepAux (s : SymgsIn) (x : Vec) : ℕ → Vec
  | 0 => x
  | k + 1 => rowUpdate s (fwdSweepAux s x k) k

/-- The forward sweep of symgsTask: rows 0 up to lNRows - 1. -/
def fwdSweep (s : SymgsIn) (x : Vec) : Vec :=
  fwdSweepAux s x s.nRows

/-- State of the backward sweep after the first k rows counted from the top
(nRows-1, nRows-2, ..., nRows-k) have been processed in decreasing order. -/
def bwdSweepAux (s : SymgsIn) (x : Vec) : ℕ → Vec
  | 0 => x
  | k + 1 => rowUpdate s (bwdSweepAux s x k) (s.nRows - 1 - k)

/-- The backward sweep of symgsTask: rows lNRows - 1 down to 0. -/
def bwdSweep (s : SymgsIn) (x : Vec) : Vec :=
  bwdSweepAux s x s.nRows

/-- Dispatch of symgsTask on the sweep argument: the forward sweep runs when
the received sweep flag equals 1, the backward sweep otherwise. -/
def symgsTaskRun (sweep : ℤ) (s : SymgsIn) (x : Vec) : Vec :=
  if sweep = 1 then fwdSweep s x else bwdSweep s x

/-- The sweep loop of symgs: two index launches, carrying sweepi = 0 and
then sweepi = 1, executed in issue order. -/
def symgsSweeps (s : SymgsIn) (x : Vec) : Vec :=
  symgsTaskRun 1 s (symgsTaskRun 0 s x)

/-- The symgs entry: the assert comparing the launch-domain volumes of
A.vals, x and r runs first; when it passes, the two sweep launches run. -/
def symgs (volA volX volR : ℕ) (s : SymgsIn) (x : Vec) : Option Vec :=
  if volA = volX ∧ volX = volR then some (symgsSweeps s x) else none

/-- Concrete 2-by-2 instance used to separate the two sweep orders:
A = [[2, 1], [1, 2]], r = [1, 1]. -/
def symgsEx : SymgsIn where
  nCols := 2
  nRows := 2
  avp := fun t => ([2, 1, 1, 2] : List ℚ).getD t 0
  aip := fun t => ([0, 1, 0, 1] : List ℕ).getD t 0
  azp := fun t => ([2, 2] : List ℕ).getD t 0
  adp := fun t => ([2, 2] : List ℚ).getD t 0
  rp := fun t => ([1, 1] : List ℚ).getD t 0

/-- The all-zero initial guess for the concrete instance. -/
def symgsExX : Vec := fun _ => 0

/-- C1 counterexample: on the concrete 2-by-2 instance the result of symgs
differs (already at row 0) from what one forward sweep followed by one
backward sweep would produce, so the claimed order is not the code's order. -/
theorem C1_sweep_order_counterexample :
    symgsSweeps symgsEx symgsExX 0 ≠ bwdSweep symgsEx (fwdSweep symgsEx symgsExX) 0 ∧
    symgsSweeps symgsEx symgsExX 0 = 1 / 4 ∧
    bwdSweep symgsEx (fwdSweep symgsEx symgsExX) 0 = 3 / 8 := by
  refine ⟨?_, ?_, ?_⟩ <;>
    norm_num [symgsSweeps, symgsTaskRun, fwdSweep, bwdSweep, fwdSweepAux,
      bwdSweepAux, rowUpdate, symgsEx, symgsExX, Finset.sum_range_succ]

/-- C1 (amended): each call to symgs performs exactly two sweeps over the
local rows, and in this order: first one backward sweep visiting rows n-1
down to 0 (launch sweepi = 0), then one forward sweep visiting rows 0 up to
n-1 (launch sweepi = 1). -/
theorem C1_symgs_two_sweeps_backward_then_forward (s : SymgsIn) (x : Vec) :
    symgsSweeps s x = fwdSweep s (bwdSweep s x) := by
  simp [symgsSweeps, symgsTaskRun]

/-- The row-i nonzero positions whose stored column index is not i itself:
the off-diagonal part of row i. -/
def offDiagSet (s : SymgsIn) (i : ℕ) : Finset ℕ :=
  Finset.filter (fun j => s.aip (i * s.nCols + j) ≠ i) (Finset.range (s.azp i))

/-- Row update algebra: when the diagonal of row i sits at a unique packed
position jd and the cached diagonal adp[i] equals that stored value, the
subtract-everything-then-add-back-the-diagonal computation of symgsTask
yields exactly (r[i] - sum of off-diagonal contributions) / adp[i]. -/
lemma rowUpdate_self (s : SymgsIn) (x : Vec) (i jd : ℕ)
    (hjd : jd < s.azp i)
    (hidx : s.aip (i * s.nCols + jd) = i)
    (huniq : ∀ j, j < s.azp i → s.aip (i * s.nCols + j) = i → j = jd)
    (hval : s.avp (i * s.nCols + jd) = s.adp i) :
    rowUpdate s x i i =
      (s.rp i -
        Finset.sum (offDiagSet s i)
          (fun j => s.avp (i * s.nCols + j) * x (s.aip (i * s.nCols + j)))) /
        s.adp i := by
  have hfilter :
      Finset.filter (fun j => s.aip (i * s.nCols + j) = i)
        (Finset.range (s.azp i)) = {jd} := by
    ext j
    simp only [Finset.mem_filter, Finset.mem_range, Finset.mem_singleton]
    constructor
    · rintro ⟨hj, hij⟩
      exact huniq j hj hij
    · rintro rfl
      exact ⟨hjd, hidx⟩
  have hsplit :
      Finset.sum (Finset.range (s.azp i))
          (fun j => s.avp (i * s.nCols + j) * x (s.aip (i * s.nCols + j))) =
        s.adp i * x i +
          Finset.sum (offDiagSet s i)
            (fun j => s.avp (i * s.nCols + j) * x (s.aip (i * s.nCols + j))) := by
    rw [← Finset.sum_filter_add_sum_filter_not (Finset.range (s.azp i))
      (fun j => s.aip (i * s.nCols + j) = i)
      (fun j => s.avp (i * s.nCols + j) * x (s.aip (i * s.nCols + j)))]
    rw [hfilter, Finset.sum_singleton, hval, hidx]
    rfl
  unfold rowUpdate
  simp only [if_pos rfl, if_true]
  rw [hsplit]
  ring

/-- C4: for every row i processed in the forward sweep, under the
precondition that the cached diagonal adp[i] is the (unique) diagonal entry
stored among row i's packed values and is nonzero, the new x[i] equals
(r[i] - sum over stored columns other than i of A[i][j] * x[j]) / adp[i],
where the x values are the ones current at the moment row i is processed
(rows 0..i-1 already updated within this sweep). -/
theorem C4_symgs_row_formula (s : SymgsIn) (x : Vec) (i jd : ℕ)
    (hrow : i < s.nRows)
    (hjd : jd < s.azp i)
    (hidx : s.aip (i * s.nCols + jd) = i)
    (huniq : ∀ j, j < s.azp i → s.aip (i * s.nCols + j) = i → j = jd)
    (hval : s.avp (i * s.nCols + jd) = s.adp i)
    (hnz : s.adp i ≠ 0) :
    fwdSweepAux s x (i + 1) i =
      (s.rp i -
        Finset.sum (offDiagSet s i)
          (fun j => s.avp (i * s.nCols + j) *
            fwdSweepAux s x i (s.aip (i * s.nCols + j)))) / s.adp i := by
  have hstep : fwdSweepAux s x (i + 1) = rowUpdate s (fwdSweepAux s x i) i := rfl
  rw [hstep]
  exact rowUpdate_self s (fwdSweepAux s x i) i jd hjd hidx huniq hval

/-- C4 witness: the concrete 2-by-2 instance satisfies the preconditions at
row 0 (diagonal at packed position 0), and the theorem applies. -/
theorem C4_symgs_row_formula_witness :
    ((0 : ℕ) < symgsEx.nRows ∧
      (0 : ℕ) < symgsEx.azp 0 ∧
      symgsEx.aip (0 * symgsEx.nCols + 0) = 0 ∧
      (∀ j, j < symgsEx.azp 0 → symgsEx.aip (0 * symgsEx.nCols + j) = 0 → j = 0) ∧
      symgsEx.avp (0 * symgsEx.nCols + 0) = symgsEx.adp 0 ∧
      symgsEx.adp 0 ≠ 0) ∧
    fwdSweepAux symgsEx symgsExX (0 + 1) 0 =
      (symgsEx.rp 0 -
        Finset.sum (offDiagSet symgsEx 0)
          (fun j => symgsEx.avp (0 * symgsEx.nCols + j) *
            fwdSweepAux symgsEx symgsExX 0 (symgsEx.aip (0 * symgsEx.nCols + j)))) /
        symgsEx.adp 0 :=
  ⟨⟨by decide, by decide, by decide, by decide, by decide, by decide⟩,
    C4_symgs_row_formula symgsEx symgsExX 0 0 (by decide) (by decide) (by decide)
      (by decide) (by decide) (by decide)⟩

/-! ## LogicalArray partitioning (src/legion/legion-hpcg/explicit-spmd/LegionArrays.hpp) -/

/-- Loop of the even partition overload: nParts windows are pushed, the
window (x0, x1) sliding by inc after each color. -/
def partitionLoop (inc : ℕ) : ℕ → ℕ → ℕ → List (ℕ × ℕ)
  | 0, _, _ => []
  | n + 1, x0, x1 => (x0, x1) :: partitionLoop inc n (x0 + inc) (x1 + inc)

/-- LogicalArray::partition(nParts): the assert on 0 == mLength % nParts
aborts first; otherwise colors 0..nParts-1 receive windows of width
inc = mLength / nParts starting from (0, inc - 1). -/
def partitionEvenModel (len nParts : ℕ) : Option (List (ℕ × ℕ)) :=
  if len % nParts = 0 then
    some (partitionLoop (len / nParts) nParts 0 (len / nParts - 1))
  else none

/-- Loop of the partLens partition overload: for each color the window is
(x0, x0 + partLens[color] - 1) and then x0 slides by partLens[color]. -/
def partitionLensLoop : List ℕ → ℕ → List (ℕ × ℕ)
  | [], _ => []
  | l :: ls, x0 => (x0, x0 + l - 1) :: partitionLensLoop ls (x0 + l)

/-- LogicalArray::partition(partLens): no assert, windows given by the
running sum of partLens. -/
def partitionLensModel (partLens : List ℕ) : List (ℕ × ℕ) :=
  partitionLensLoop partLens 0

/-- Index k lies inside the closed subgrid window pr. -/
def inRange (pr : ℕ × ℕ) (k : ℕ) : Prop := pr.1 ≤ k ∧ k ≤ pr.2

/-- No index lies in the windows of two distinct colors. -/
def RangesDisjoint (rs : List (ℕ × ℕ)) : Prop :=
  ∀ c d k, c < rs.length → d < rs.length → c ≠ d →
    ¬ (inRange (rs.getD c (0, 0)) k ∧ inRange (rs.getD d (0, 0)) k)

/-- The windows together hold exactly the indices below len. -/
def RangesCover (rs : List (ℕ × ℕ)) (len : ℕ) : Prop :=
  ∀ k, k < len ↔ ∃ c, c < rs.length ∧ inRange (rs.getD c (0, 0)) k

/-- Color 0 starts at index 0 and every later color starts right after the
previous color's last index. -/
def RangesContiguous (rs : List (ℕ × ℕ)) : Prop :=
  (rs.getD 0 (0, 0)).1 = 0 ∧
  ∀ c, c + 1 < rs.length → (rs.getD (c + 1) (0, 0)).1 = (rs.getD c (0, 0)).2 + 1

/-- C5: both abort paths, characterized exactly.  The partition assert
fires exactly when nParts does not evenly divide the array length, and the
symgs assert fires exactly when the three launch-domain volumes are not all
equal; under the setup preconditions neither can fire. -/
theorem C5_assert_abort_conditions (len nParts volA volX volR : ℕ)
    (s : SymgsIn) (x : Vec) :
    (partitionEvenModel len nParts = none ↔ ¬ nParts ∣ len) ∧
    (symgs volA volX volR s x = none ↔ ¬ (volA = volX ∧ volX = volR)) := by
  constructor
  · have hdm : nParts ∣ len → len % nParts = 0 := by
      rintro ⟨c, rfl⟩
      exact Nat.mul_mod_right _ _
    unfold partitionEvenModel
    by_cases h : len % nParts = 0
    · simp [h, Nat.dvd_of_mod_eq_zero h]
    · have hnd : ¬ nParts ∣ len := fun hd2 => h (hdm hd2)
      simp [h, hnd]
  · unfold symgs
    by_cases h : volA = volX ∧ volX = volR
    · simp [h]
    · simp [h]

lemma partitionLoop_length (inc : ℕ) :
    ∀ (n x0 x1 : ℕ), (partitionLoop inc n x0 x1).length = n := by
  intro n
  induction n with
  | zero => intro x0 x1; rfl
  | succ m ih =>
      intro x0 x1
      simp [partitionLoop, ih]

lemma partitionLoop_getD (inc : ℕ) :
    ∀ (n c x0 x1 : ℕ), c < n →
      (partitionLoop inc n x0 x1).getD c (0, 0) = (x0 + c * inc, x1 + c * inc) := by
  intro n
  induction n with
  | zero => intro c x0 x1 hc; omega
  | succ m ih =>
      intro c x0 x1 hc
      cases c with
      | zero => simp [partitionLoop]
      | succ c2 =>
          have hc2 : c2 < m := by omega
          simp only [partitionLoop, List.getD_cons_succ]
          rw [ih c2 (x0 + inc) (x1 + inc) hc2]
          simp only [Prod.mk.injEq]
          constructor <;> ring

lemma lensLoop_length : ∀ (ls : List ℕ) (x0 : ℕ),
    (partitionLensLoop ls x0).length = ls.length := by
  intro ls
  induction ls with
  | nil => intro x0; rfl
  | cons l ls2 ih =>
      intro x0
      simp [partitionLensLoop, ih]

lemma lensLoop_getD : ∀ (ls : List ℕ) (x0 c : ℕ), c < ls.length →
    (partitionLensLoop ls x0).getD c (0, 0) =
      (x0 + (ls.take c).sum, x0 + (ls.take c).sum + ls.getD c 0 - 1) := by
  intro ls
  induction ls with
  | nil => intro x0 c hc; simp at hc
  | cons l ls2 ih =>
      intro x0 c hc
      cases c with
      | zero => simp [partitionLensLoop]
      | succ c2 =>
          have hc2 : c2 < ls2.length := by simpa using hc
          simp only [partitionLensLoop, List.getD_cons_succ, List.take_succ_cons,
            List.sum_cons]
          rw [ih (x0 + l) c2 hc2]
          simp only [Prod.mk.injEq]
          omega

lemma take_sum_mono (ls : List ℕ) : ∀ a b : ℕ, a ≤ b →
    (ls.take a).sum ≤ (ls.take b).sum := by
  induction ls with
  | nil => intro a b _; simp
  | cons l ls2 ih =>
      intro a b hab
      cases a with
      | zero => simp
      | succ a2 =>
          cases b with
          | zero => omega
          | succ b2 =>
              simp only [List.take_succ_cons, List.sum_cons]
              exact Nat.add_le_add_left (ih a2 b2 (by omega)) l

lemma take_sum_le (ls : List ℕ) : ∀ m : ℕ, (ls.take m).sum ≤ ls.sum := by
  induction ls with
  | nil => intro m; simp
  | cons l ls2 ih =>
      intro m
      cases m with
      | zero => simp
      | succ m2 =>
          simp only [List.take_succ_cons, List.sum_cons]
          exact Nat.add_le_add_left (ih m2) l

lemma take_sum_succ (ls : List ℕ) (c : ℕ) (hc : c < ls.length) :
    (ls.take (c + 1)).sum = (ls.take c).sum + ls.getD c 0 := by
  induction ls generalizing c with
  | nil => simp at hc
  | cons l ls2 ih =>
      cases c with
      | zero => simp
      | succ c2 =>
          have hc2 : c2 < ls2.length := by simpa using hc
          simp only [List.take_succ_cons, List.sum_cons, List.getD_cons_succ]
          rw [ih c2 hc2]
          omega

lemma getD_ge_one (ls : List ℕ) (c : ℕ) (hc : c < ls.length)
    (hpl : ∀ l ∈ ls, 1 ≤ l) : 1 ≤ ls.getD c 0 := by
  induction ls generalizing c with
  | nil => simp at hc
  | cons l ls2 ih =>
      cases c with
      | zero => exact hpl l (List.mem_cons_self l ls2)
      | succ c2 =>
          have hc2 : c2 < ls2.length := by simpa using hc
          exact ih c2 hc2 (fun y hy => hpl y (List.mem_cons_of_mem l hy))

lemma lens_cover_aux (ls : List ℕ) (hpl : ∀ l ∈ ls, 1 ≤ l) :
    ∀ k, k < ls.sum ↔
      ∃ c, c < ls.length ∧ (ls.take c).sum ≤ k ∧ k < (ls.take (c + 1)).sum := by
  induction ls with
  | nil =>
      intro k
      constructor
      · intro h; simp at h
      · rintro ⟨c, hc, -⟩; simp at hc
  | cons l ls2 ih =>
      intro k
      have ihk := ih (fun y hy => hpl y (List.mem_cons_of_mem l hy))
      constructor
      · intro hk
        by_cases hkl : k < l
        · exact ⟨0, by simp, by simp, by simpa using hkl⟩
        · have hk2 : k - l < ls2.sum := by
            simp only [List.sum_cons] at hk; omega
          obtain ⟨c, hc, h1, h2⟩ := (ihk (k - l)).1 hk2
          refine ⟨c + 1, by simpa using hc, ?_, ?_⟩
          · simp only [List.take_succ_cons, List.sum_cons]; omega
          · simp only [List.take_succ_cons, List.sum_cons]; omega
      · rintro ⟨c, hc, h1, h2⟩
        cases c with
        | zero =>
            simp only [List.take_succ_cons, List.take_zero, List.sum_cons,
              List.sum_nil] at h2 ⊢
            have := take_sum_le ls2 0
            have h3 : (ls2.take 0).sum = 0 := by simp
            omega
        | succ c2 =>
            have hc2 : c2 < ls2.length := by simpa using hc
            simp only [List.take_succ_cons, List.sum_cons] at h1 h2 ⊢
            have hle : (ls2.take (c2 + 1)).sum ≤ ls2.sum := take_sum_le ls2 (c2 + 1)
            omega

/-- Conclusion of C6, shared by the theorem and its witness: both partition
overloads produce windows where each color starts where the previous one
ends, the windows are pairwise disjoint and cover exactly the indices
0..length-1 (0..sum partLens - 1 for the explicit-lengths overload). -/
def PartitionSpec (len nParts : ℕ) (partLens : List ℕ) : Prop :=
  (∃ rs, partitionEvenModel len nParts = some rs ∧
    rs.length = nParts ∧
    (∀ c, c < nParts →
      rs.getD c (0, 0) =
        (c * (len / nParts), c * (len / nParts) + (len / nParts - 1))) ∧
    RangesContiguous rs ∧ RangesDisjoint rs ∧ RangesCover rs len) ∧
  ((partitionLensModel partLens).length = partLens.length ∧
    (∀ c, c < partLens.length →
      (partitionLensModel partLens).getD c (0, 0) =
        ((partLens.take c).sum, (partLens.take c).sum + partLens.getD c 0 - 1)) ∧
    RangesContiguous (partitionLensModel partLens) ∧
    RangesDisjoint (partitionLensModel partLens) ∧
    RangesCover (partitionLensModel partLens) partLens.sum)

/-- C6: every partitioning produced by LogicalArray::partition gives color c
the contiguous index range starting where color c-1 ends; the sub-regions
are pairwise disjoint, contiguous, and cover exactly indices 0..length-1. -/
theorem C6_partition_disjoint_contiguous_cover (len nParts : ℕ)
    (partLens : List ℕ) (hp : 0 < nParts) (hd : nParts ∣ len) (hl : 0 < len)
    (hpl : ∀ l ∈ partLens, 1 ≤ l) :
    PartitionSpec len nParts partLens := by
  obtain ⟨inc, hinc⟩ := hd
  have hincpos : 0 < inc := by
    rcases Nat.eq_zero_or_pos inc with h0 | h1
    · subst h0; omega
    · exact h1
  have hdiv : len / nParts = inc := by
    rw [hinc, Nat.mul_div_cancel_left inc hp]
  have hmod : len % nParts = 0 := by
    rw [hinc]; exact Nat.mul_mod_right _ _
  constructor
  · -- even overload
    refine ⟨partitionLoop inc nParts 0 (inc - 1), ?_, ?_, ?_, ?_, ?_, ?_⟩
    · unfold partitionEvenModel
      rw [if_pos hmod, hdiv]
    · exact partitionLoop_length inc nParts 0 (inc - 1)
    · intro c hc
      rw [hdiv, partitionLoop_getD inc nParts c 0 (inc - 1) hc]
      simp only [Prod.mk.injEq]
      constructor <;> ring
    · constructor
      · rw [partitionLoop_getD inc nParts 0 0 (inc - 1) hp]
        simp
      · intro c hc
        rw [partitionLoop_length] at hc
        rw [partitionLoop_getD inc nParts (c + 1) 0 (inc - 1) hc,
          partitionLoop_getD inc nParts c 0 (inc - 1) (by omega)]
        have hsucc : (c + 1) * inc = c * inc + inc := by ring
        simp only [Nat.zero_add]
        omega
    · intro c d k hc hd2 hcd hkk
      rw [partitionLoop_length] at hc hd2
      obtain ⟨⟨hk1, hk2⟩, ⟨hk3, hk4⟩⟩ := hkk
      rw [partitionLoop_getD inc nParts c 0 (inc - 1) hc] at hk1 hk2
      rw [partitionLoop_getD inc nParts d 0 (inc - 1) hd2] at hk3 hk4
      simp only [Nat.zero_add] at hk1 hk2 hk3 hk4
      rcases Nat.lt_or_ge c d with hlt | hge
      · have hmul : (c + 1) * inc ≤ d * inc := Nat.mul_le_mul_right inc (by omega)
        have hsucc : (c + 1) * inc = c * inc + inc := by ring
        omega
      · have hlt2 : d < c := by omega
        have hmul : (d + 1) * inc ≤ c * inc := Nat.mul_le_mul_right inc (by omega)
        have hsucc : (d + 1) * inc = d * inc + inc := by ring
        omega
    · intro k
      rw [partitionLoop_length]
      constructor
      · intro hk
        have hklen : k < nParts * inc := by omega
        refine ⟨k / inc, ?_, ?_, ?_⟩
        · exact (Nat.div_lt_iff_lt_mul hincpos).2 (by omega)
        · rw [partitionLoop_getD inc nParts (k / inc) 0 (inc - 1)
            ((Nat.div_lt_iff_lt_mul hincpos).2 (by omega))]
          have hmm := Nat.div_add_mod k inc
          have hcm : k / inc * inc = inc * (k / inc) := Nat.mul_comm _ _
          simp only [Nat.zero_add]
          omega
        · rw [partitionLoop_getD inc nParts (k / inc) 0 (inc - 1)
            ((Nat.div_lt_iff_lt_mul hincpos).2 (by omega))]
          have hmm := Nat.div_add_mod k inc
          have hmlt : k % inc < inc := Nat.mod_lt k hincpos
          have hcm : k / inc * inc = inc * (k / inc) := Nat.mul_comm _ _
          simp only [Nat.zero_add]
          omega
      · rintro ⟨c, hc, hk1, hk2⟩
        rw [partitionLoop_getD inc nParts c 0 (inc - 1) hc] at hk1 hk2
        simp only [Nat.zero_add] at hk1 hk2
        have hmul : (c + 1) * inc ≤ nParts * inc := Nat.mul_le_mul_right inc (by omega)
        have hsucc : (c + 1) * inc = c * inc + inc := by ring
        omega
  · -- explicit-lengths overload
    have hlen := lensLoop_length partLens 0
    refine ⟨hlen, ?_, ?_, ?_, ?_⟩
    · intro c hc
      unfold partitionLensModel
      rw [lensLoop_getD partLens 0 c hc]
      simp only [Prod.mk.injEq, Nat.zero_add]
    · constructor
      · unfold partitionLensModel
        cases partLens with
        | nil => rfl
        | cons l ls => simp [partitionLensLoop]
      · intro c hc
        unfold partitionLensModel at hc ⊢
        rw [lensLoop_length] at hc
        rw [lensLoop_getD partLens 0 (c + 1) hc, lensLoop_getD partLens 0 c (by omega)]
        simp only [Nat.zero_add]
        have hg1 : 1 ≤ partLens.getD c 0 := getD_ge_one partLens c (by omega) hpl
        have hss := take_sum_succ partLens c (by omega)
        omega
    · intro c d k hc hd2 hcd hkk
      unfold partitionLensModel at hc hd2 hkk
      rw [lensLoop_length] at hc hd2
      obtain ⟨⟨hk1, hk2⟩, ⟨hk3, hk4⟩⟩ := hkk
      rw [lensLoop_getD partLens 0 c hc] at hk1 hk2
      rw [lensLoop_getD partLens 0 d hd2] at hk3 hk4
      simp only [Nat.zero_add] at hk1 hk2 hk3 hk4
      have hgc : 1 ≤ partLens.getD c 0 := getD_ge_one partLens c hc hpl
      have hgd : 1 ≤ partLens.getD d 0 := getD_ge_one partLens d hd2 hpl
      have hsc := take_sum_succ partLens c hc
      have hsd := take_sum_succ partLens d hd2
      rcases Nat.lt_or_ge c d with hlt | hge
      · have hmono := take_sum_mono partLens (c + 1) d (by omega)
        omega
      · have hlt2 : d < c := by omega
        have hmono := take_sum_mono partLens (d + 1) c (by omega)
        omega
    · intro k
      unfold partitionLensModel
      rw [lensLoop_length]
      rw [lens_cover_aux partLens hpl k]
      constructor
      · rintro ⟨c, hc, h1, h2⟩
        refine ⟨c, hc, ?_, ?_⟩
        · rw [lensLoop_getD partLens 0 c hc]
          simpa using h1
        · rw [lensLoop_getD partLens 0 c hc]
          have hss := take_sum_succ partLens c hc
          have hg1 : 1 ≤ partLens.getD c 0 := getD_ge_one partLens c hc hpl
          simp only [Nat.zero_add]
          omega
      · rintro ⟨c, hc, h1, h2⟩
        rw [lensLoop_getD partLens 0 c hc] at h1 h2
        simp only [Nat.zero_add] at h1 h2
        have hss := take_sum_succ partLens c hc
        have hg1 : 1 ≤ partLens.getD c 0 := getD_ge_one partLens c hc hpl
        exact ⟨c, hc, by omega, by omega⟩

/-- C6 witness: length 4 split evenly in two parts, and explicit part
lengths [2, 3]. -/
theorem C6_partition_witness :
    ((0 : ℕ) < 2 ∧ (2 : ℕ) ∣ 4 ∧ (0 : ℕ) < 4 ∧
      ∀ l ∈ ([2, 3] : List ℕ), 1 ≤ l) ∧
    PartitionSpec 4 2 [2, 3] :=
  ⟨⟨by decide, by decide, by decide, by decide⟩,
    C6_partition_disjoint_contiguous_cover 4 2 [2, 3] (by decide) (by decide)
      (by decide) (by decide)⟩

/-! ## Residual (src/legion/legion-hpcg/explicit-spmd/ComputeResidual.hpp) -/

/-- Loop of ComputeResidualKernel: local_residual starts at 0 and is
replaced by diff = |v1[i] - v2[i]| whenever diff exceeds it. -/
def resLoop (v1 v2 : Vec) : ℕ → ℚ
  | 0 => 0
  | i + 1 =>
      let lr := resLoop v1 v2 i
      let diff := |v1 i - v2 i|
      if lr < diff then diff else lr

/-- ComputeResidualKernel: runs the loop over the n local elements, writes
the result into residual, and returns 0. -/
def ComputeResidualKernel (n : ℕ) (v1 v2 : Vec) : ℚ × ℤ :=
  (resLoop v1 v2 n, 0)

/-- Modelled from the spec: allReduce with the max combine operator
(the Async Reduction Protocol; its implementation is not part of the
provided sources).  It combines the calling task's value with every other
partition's value under max; 0 is the reduction identity for the
nonnegative per-partition residuals. -/
def allReduceMax (x : ℚ) (xs : List ℚ) : ℚ := xs.foldl max x

/-- ComputeResidual: every partition contributes its
ComputeResidualKernel value; the final residual is their max all-reduce;
the return status is 0.  A partition is a triple (n, v1, v2). -/
def ComputeResidual (parts : List (ℕ × Vec × Vec)) : ℚ × ℤ :=
  (allReduceMax 0
    (parts.map fun pr => (ComputeResidualKernel pr.1 pr.2.1 pr.2.2).1), 0)

lemma resLoop_nonneg (v1 v2 : Vec) : ∀ n, 0 ≤ resLoop v1 v2 n := by
  intro n
  induction n with
  | zero => simp [resLoop]
  | succ m ih =>
      simp only [resLoop]
      by_cases h : resLoop v1 v2 m < |v1 m - v2 m|
      · simp only [if_pos h]
        exact abs_nonneg _
      · simp only [if_neg h]
        exact ih

lemma resLoop_ub (v1 v2 : Vec) : ∀ n i, i < n →
    |v1 i - v2 i| ≤ resLoop v1 v2 n := by
  intro n
  induction n with
  | zero => intro i hi; omega
  | succ m ih =>
      intro i hi
      simp only [resLoop]
      by_cases h : resLoop v1 v2 m < |v1 m - v2 m|
      · simp only [if_pos h]
        rcases Nat.lt_or_ge i m with him | him
        · exact le_of_lt (lt_of_le_of_lt (ih i him) h)
        · have : i = m := by omega
          subst this
          exact le_refl _
      · simp only [if_neg h]
        rcases Nat.lt_or_ge i m with him | him
        · exact ih i him
        · have : i = m := by omega
          subst this
          exact le_of_not_lt h

lemma resLoop_attained (v1 v2 : Vec) : ∀ n,
    resLoop v1 v2 n = 0 ∨ ∃ i, i < n ∧ resLoop v1 v2 n = |v1 i - v2 i| := by
  intro n
  induction n with
  | zero => left; rfl
  | succ m ih =>
      simp only [resLoop]
      by_cases h : resLoop v1 v2 m < |v1 m - v2 m|
      · right
        exact ⟨m, by omega, by simp [if_pos h]⟩
      · simp only [if_neg h]
        rcases ih with h0 | ⟨i, hi, hv⟩
        · left; exact h0
        · right; exact ⟨i, by omega, hv⟩

lemma foldl_max_init_le (xs : List ℚ) : ∀ x : ℚ, x ≤ xs.foldl max x := by
  induction xs with
  | nil => intro x; exact le_refl x
  | cons y ys ih =>
      intro x
      exact le_trans (le_max_left x y) (ih (max x y))

lemma foldl_max_mem_le (xs : List ℚ) : ∀ (x y : ℚ), y ∈ xs →
    y ≤ xs.foldl max x := by
  induction xs with
  | nil => intro x y hy; simp at hy
  | cons z zs ih =>
      intro x y hy
      rcases List.mem_cons.1 hy with rfl | hy2
      · exact le_trans (le_max_right x y) (foldl_max_init_le zs (max x y))
      · exact ih (max x z) y hy2

lemma foldl_max_attained (xs : List ℚ) : ∀ x : ℚ,
    xs.foldl max x = x ∨ ∃ y ∈ xs, xs.foldl max x = y := by
  induction xs with
  | nil => intro x; left; rfl
  | cons z zs ih =>
      intro x
      rcases ih (max x z) with h | ⟨y, hy, hv⟩
      · rcases max_choice x z with hm | hm
        · left
          rw [hm] at h
          simp only [List.foldl_cons, hm]
          exact h
        · right
          refine ⟨z, List.mem_cons_self z zs, ?_⟩
          rw [hm] at h
          simp only [List.foldl_cons, hm]
          exact h
      · right
        exact ⟨y, List.mem_cons_of_mem z hy, by simpa using hv⟩

/-- Conclusion of C7, shared by the theorem (which has no hypotheses) for
readability: the kernel result is the local inf-norm of the difference
(an upper bound on all local differences, zero or attained, zero when the
partition is empty), the combined residual is the global inf-norm, and both
status codes are zero. -/
def ResidualSpec (n : ℕ) (v1 v2 : Vec) (parts : List (ℕ × Vec × Vec)) : Prop :=
  ((ComputeResidualKernel n v1 v2).2 = 0 ∧
    0 ≤ (ComputeResidualKernel n v1 v2).1 ∧
    (∀ i, i < n → |v1 i - v2 i| ≤ (ComputeResidualKernel n v1 v2).1) ∧
    ((ComputeResidualKernel n v1 v2).1 = 0 ∨
      ∃ i, i < n ∧ (ComputeResidualKernel n v1 v2).1 = |v1 i - v2 i|) ∧
    (n = 0 → (ComputeResidualKernel n v1 v2).1 = 0)) ∧
  ((ComputeResidual parts).2 = 0 ∧
    (∀ pr ∈ parts, ∀ i, i < pr.1 →
      |pr.2.1 i - pr.2.2 i| ≤ (ComputeResidual parts).1) ∧
    ((ComputeResidual parts).1 = 0 ∨
      ∃ pr ∈ parts, ∃ i, i < pr.1 ∧
        (ComputeResidual parts).1 = |pr.2.1 i - pr.2.2 i|))

/-- C7: ComputeResidualKernel computes the max over the n local elements of
the absolute difference (zero when n = 0), ComputeResidual combines the
per-partition kernel results with a max all-reduce so the final residual is
the global inf-norm of the difference, and both functions return zero. -/
theorem C7_residual_inf_norm (n : ℕ) (v1 v2 : Vec)
    (parts : List (ℕ × Vec × Vec)) : ResidualSpec n v1 v2 parts := by
  constructor
  · refine ⟨rfl, resLoop_nonneg v1 v2 n, ?_, ?_, ?_⟩
    · intro i hi
      exact resLoop_ub v1 v2 n i hi
    · exact resLoop_attained v1 v2 n
    · rintro rfl
      rfl
  · refine ⟨rfl, ?_, ?_⟩
    · intro pr hpr i hi
      have hk : |pr.2.1 i - pr.2.2 i| ≤ (ComputeResidualKernel pr.1 pr.2.1 pr.2.2).1 :=
        resLoop_ub pr.2.1 pr.2.2 pr.1 i hi
      have hmem : (ComputeResidualKernel pr.1 pr.2.1 pr.2.2).1 ∈
          parts.map fun q => (ComputeResidualKernel q.1 q.2.1 q.2.2).1 :=
        List.mem_map.2 ⟨pr, hpr, rfl⟩
      exact le_trans hk (foldl_max_mem_le _ 0 _ hmem)
    · rcases foldl_max_attained
          (parts.map fun q => (ComputeResidualKernel q.1 q.2.1 q.2.2).1) 0 with h0 | hv
      · left
        exact h0
      · obtain ⟨y, hy, hvy⟩ := hv
        obtain ⟨pr, hpr, rfl⟩ := List.mem_map.1 hy
        rcases resLoop_attained pr.2.1 pr.2.2 pr.1 with hz | hiv
        · left
          exact hvy.trans hz
        · obtain ⟨i, hi, hival⟩ := hiv
          right
          exact ⟨pr, hpr, i, hi, hvy.trans hival⟩

/-! ## Item construction (LegionItems.hpp together with offsetsAreDense of
LegionStuff.hpp) -/

/-- offsetsAreDense: exp_offset starts at sizeof(T); for each of the DIM
outer iterations the inner loop looks for the first dimension whose byte
offset equals exp_offset, multiplies exp_offset by that dimension's extent
(hi - lo + 1) on success and fails the whole check when no dimension
matches.  The pairs list carries (offset[j], extent[j]). -/
def denseFind : List (ℤ × ℤ) → ℤ → Option ℤ
  | [], _ => none
  | (off, ext) :: rest, expOff =>
      if off = expOff then some (expOff * ext) else denseFind rest expOff

/-- Outer loop of offsetsAreDense: DIM passes, threading exp_offset. -/
def denseOuter (pairs : List (ℤ × ℤ)) : ℕ → ℤ → Bool
  | 0, _ => true
  | i + 1, expOff =>
      match denseFind pairs expOff with
      | none => false
      | some e2 => denseOuter pairs i e2

/-- offsetsAreDense over bounds given as (lo, hi) per dimension and byte
offsets per dimension; szT is sizeof(T). -/
def offsetsAreDense (szT : ℤ) (bounds : List (ℤ × ℤ)) (offs : List ℤ) : Bool :=
  denseOuter (offs.zip (bounds.map fun b => b.2 - b.1 + 1)) offs.length szT

/-- Result of the generic raw_rect_ptr accessor call made by the Item
constructor: the returned pointer (none models nullptr), the subrectangle
actually granted, and the byte offsets. -/
structure RawAccess where
  ptr : Option ℕ
  subrect : List (ℤ × ℤ)
  offs : List ℤ

/-- The mData computed by the Item constructor: the raw pointer, reset to
nullptr when the pointer is null, the granted subrectangle differs from the
requested sub-grid bounds, or the layout is not dense. -/
def itemCtorData (szT : ℤ) (bounds : List (ℤ × ℤ)) (acc : RawAccess) : Option ℕ :=
  if acc.ptr = none ∨ acc.subrect ≠ bounds ∨ offsetsAreDense szT bounds acc.offs = false
  then none
  else acc.ptr

/-- C10: after construction, data() is either nullptr or the raw accessor
pointer under the full validity conditions: the accessor returned a non-null
pointer, the granted subrectangle equals the requested bounds, and the
element layout is dense.  No partially valid pointer is observable. -/
theorem C10_item_data_all_or_nothing (szT : ℤ) (bounds : List (ℤ × ℤ))
    (acc : RawAccess) :
    itemCtorData szT bounds acc = none ∨
    (∃ p, itemCtorData szT bounds acc = some p ∧ acc.ptr = some p ∧
      acc.subrect = bounds ∧ offsetsAreDense szT bounds acc.offs = true) := by
  unfold itemCtorData
  by_cases h : acc.ptr = none ∨ acc.subrect ≠ bounds ∨
      offsetsAreDense szT bounds acc.offs = false
  · left
    rw [if_pos h]
  · right
    push_neg at h
    obtain ⟨hp, hsub, hdense⟩ := h
    obtain ⟨p, hp2⟩ := Option.ne_none_iff_exists.1 hp
    refine ⟨p, ?_, hp2.symm, hsub, ?_⟩
    · rw [if_neg]
      · exact hp2.symm
      · push_neg
        exact ⟨hp, hsub, hdense⟩
    · simpa using hdense

/-! ## CG driver (src/legion/legion-hpcg/explicit-spmd/CG.hpp)

The numeric scalars of the driver are embedded as exact rationals; the
square root applied by the future machinery is an abstract parameter.  The
mytimer readings are an input stream indexed by call order, so that the
influence of timing on the result can be stated.  The vector kernels
called by CG live outside the provided sources and are modelled from the
specification (section 4.2 and 4.3). -/

/-- Modelled from the spec: ComputeWAXPBY writes alpha*x[i] + beta*y[i]
into out[i] for the n local rows; other entries keep the out vector's
previous contents (out may alias x or y in CG). -/
def ComputeWAXPBY (n : ℕ) (alpha : ℚ) (x : Vec) (beta : ℚ) (y : Vec)
    (out : Vec) : Vec :=
  fun i => if i < n then alpha * x i + beta * y i else out i

/-- Modelled from the spec: ComputeDotProduct produces the global dot
product over the n local rows, here the materialized value of the deferred
all-reduce sum. -/
def ComputeDotProduct (n : ℕ) (x y : Vec) : ℚ :=
  Finset.sum (Finset.range n) (fun i => x i * y i)

/-- Modelled from the spec: ComputeSPMV writes row sums of A times x into
the n local rows of the out vector (after ghost exchange, which in this
global-index model is the identity); other entries keep the out vector's
previous contents. -/
def ComputeSPMV (n : ℕ) (A : ℕ → ℕ → ℚ) (x : Vec) (out : Vec) : Vec :=
  fun row =>
    if row < n then Finset.sum (Finset.range n) (fun j => A row j * x j)
    else out row

/-- Fixed inputs of a CG call.  MG is the multigrid preconditioner applied
by ComputeMG (modelled from the spec as an abstract vector transformer) and
sqrtF the scalar square root applied through FMO_SQRT (abstract; exact
rationals have no square root and no verified property depends on it). -/
structure CGParams where
  nrow : ℕ
  A : ℕ → ℕ → ℚ
  MG : Vec → Vec
  doPreconditioning : Bool
  tolerance : ℚ
  maxIter : ℕ
  sqrtF : ℚ → ℚ

/-- Numeric state of the CG iteration: the four work vectors of CGData
plus x, the scalar locals of CG (rtz, beta, alpha, normr) and the niters
out-parameter. -/
structure CGNumSt where
  x : Vec
  r : Vec
  z : Vec
  p : Vec
  Ap : Vec
  rtz : ℚ
  beta : ℚ
  alpha : ℚ
  normr : ℚ
  niters : ℤ

/-- Timing state: the mytimer call counter and the accumulation locals
t1..t5 (t0 is the scratch TICK start and t6 is never touched). -/
structure CGTmSt where
  cnt : ℕ
  t1 : ℚ
  t2 : ℚ
  t3 : ℚ
  t4 : ℚ
  t5 : ℚ

/-- Tail of the iteration body shared by both branches (CG.hpp lines
211-242): Ap = A*p, pAp = dot(p, Ap), alpha = rtz / pAp with the rtz
recomputed earlier in this same iteration, x += alpha*p, r -= alpha*Ap,
normr = sqrt(dot(r, r)), niters = k. -/
def cgBodyTail (P : CGParams) (k : ℕ) (s : CGNumSt) : CGNumSt :=
  let Ap := ComputeSPMV P.nrow P.A s.p s.Ap
  let pAp := ComputeDotProduct P.nrow s.p Ap
  let alpha := s.rtz / pAp
  let x := ComputeWAXPBY P.nrow 1 s.x alpha s.p s.x
  let r := ComputeWAXPBY P.nrow 1 s.r (-alpha) Ap s.r
  let rr := ComputeDotProduct P.nrow r r
  let normr := P.sqrtF rr
  { s with Ap := Ap, alpha := alpha, x := x, r := r, normr := normr,
           niters := (k : ℤ) }

/-- Numeric assignments of one iteration body (CG.hpp lines 176-242) in
source order: z by preconditioner or copy; on k = 1, p = waxpby(1,z,0,z)
then rtz = dot(r,z); otherwise oldrtz = rtz, rtz = dot(r,z),
beta = rtz/oldrtz (FMO_DIV of the two futures), p = waxpby(1,z,beta,p);
then the shared tail. -/
def cgBodyNum (P : CGParams) (k : ℕ) (s : CGNumSt) : CGNumSt :=
  let z := if P.doPreconditioning then P.MG s.r else s.r
  if k = 1 then
    let p := ComputeWAXPBY P.nrow 1 z 0 z s.p
    let rtz := ComputeDotProduct P.nrow s.r z
    cgBodyTail P k { s with z := z, p := p, rtz := rtz }
  else
    let oldrtz := s.rtz
    let rtz := ComputeDotProduct P.nrow s.r z
    let beta := rtz / oldrtz
    let p := ComputeWAXPBY P.nrow 1 z beta s.p s.p
    cgBodyTail P k { s with z := z, p := p, rtz := rtz, beta := beta }

/-- Timer consumption of the shared tail: TICK/TOCK around SPMV charged to
t3, around the pAp dot product to t1 with the inner all-reduce pair to t4,
around the two WAXPBY updates to t2, and around the residual dot product
again to t1/t4; twelve readings in total. -/
def cgBodyTmTail (timer : ℕ → ℚ) (s : CGTmSt) : CGTmSt :=
  let d := s.cnt
  { cnt := d + 12,
    t1 := s.t1 + (timer (d + 5) - timer (d + 2)) + (timer (d + 11) - timer (d + 8)),
    t2 := s.t2 + (timer (d + 7) - timer (d + 6)),
    t3 := s.t3 + (timer (d + 1) - timer d),
    t4 := s.t4 + (timer (d + 4) - timer (d + 3)) + (timer (d + 10) - timer (d + 9)),
    t5 := s.t5 }

/-- Timer consumption of one iteration body: the preconditioner TICK/TOCK
pair goes to t5; the k = 1 branch charges a WAXPBY pair to t2 and then a
dot product (outer pair to t1, inner all-reduce pair to t4, modelled from
the spec since the kernel sources are outside this tree); the other branch
does the dot product first and the WAXPBY after.  Both branches consume
eight readings before the shared tail. -/
def cgBodyTm (timer : ℕ → ℚ) (k : ℕ) (s : CGTmSt) : CGTmSt :=
  let c := s.cnt
  if k = 1 then
    cgBodyTmTail timer
      { cnt := c + 8,
        t1 := s.t1 + (timer (c + 7) - timer (c + 4)),
        t2 := s.t2 + (timer (c + 3) - timer (c + 2)),
        t3 := s.t3,
        t4 := s.t4 + (timer (c + 6) - timer (c + 5)),
        t5 := s.t5 + (timer (c + 1) - timer c) }
  else
    cgBodyTmTail timer
      { cnt := c + 8,
        t1 := s.t1 + (timer (c + 5) - timer (c + 2)),
        t2 := s.t2 + (timer (c + 7) - timer (c + 6)),
        t3 := s.t3,
        t4 := s.t4 + (timer (c + 4) - timer (c + 3)),
        t5 := s.t5 + (timer (c + 1) - timer c) }

/-- Combined loop state. -/
structure CGSt where
  num : CGNumSt
  tm : CGTmSt

/-- One iteration body: the numeric assignments and the timing
assignments; the source interleaves them but neither component reads the
other's state. -/
def cgBody (P : CGParams) (timer : ℕ → ℚ) (k : ℕ) (s : CGSt) : CGSt :=
  { num := cgBodyNum P k s.num, tm := cgBodyTm timer k s.tm }

/-- The CG iteration loop: for (k = 1; k <= maxIter and
normr/normr0 > tolerance; k++).  fuel is maxIter - k + 1, the number of
iterations the counter check still allows. -/
def cgLoop (P : CGParams) (timer : ℕ → ℚ) (normr0 : ℚ) :
    ℕ → ℕ → CGSt → CGSt
  | 0, _, s => s
  | fuel + 1, k, s =>
      if P.tolerance < s.num.normr / normr0 then
        cgLoop P timer normr0 fuel (k + 1) (cgBody P timer k s)
      else s

/-- Contents of the preallocated CGData vectors on entry. -/
structure CGData where
  r : Vec
  z : Vec
  p : Vec
  Ap : Vec

/-- Initial Ap = A * p with p holding a copy of x (CG.hpp lines 153-157). -/
def cgInitAp (P : CGParams) (data : CGData) (x0 : Vec) : Vec :=
  ComputeSPMV P.nrow P.A x0 data.Ap

/-- Initial residual vector r = waxpby(1, b, -1, Ap) (CG.hpp line 160). -/
def cgInitR (P : CGParams) (data : CGData) (b x0 : Vec) : Vec :=
  ComputeWAXPBY P.nrow 1 b (-1) (cgInitAp P data x0) data.r

/-- Initial residual norm normr = sqrt(dot(r, r)) (CG.hpp lines 164-169),
also recorded as normr0. -/
def cgInitNormr (P : CGParams) (data : CGData) (b x0 : Vec) : ℚ :=
  P.sqrtF (ComputeDotProduct P.nrow (cgInitR P data b x0) (cgInitR P data b x0))

/-- Observable results of a CG call: the return status, the out-parameters
niters, normr, normr0 and times, and the final x and r vectors. -/
structure CGOut where
  status : ℤ
  niters : ℤ
  normr : ℚ
  normr0 : ℚ
  x : Vec
  r : Vec
  times : ℕ → ℚ

/-- times[j] += v. -/
def updTimes (f : ℕ → ℚ) (j : ℕ) (v : ℚ) : ℕ → ℚ :=
  fun i => if i = j then f i + v else f i

/-- The initial loop state of CG (CG.hpp lines 136-173): p = copy of x,
Ap = A*p, r = b - Ap, normr = sqrt(dot(r,r)); the scalar locals at their
declaration values (rtz is the default empty future, never read before its
first assignment, modelled as 0); niters still holds the caller's value;
the timing locals after the three timed init sections, which consume timer
readings 1-8 (reading 0 is t_begin). -/
def cgInitSt (P : CGParams) (timer : ℕ → ℚ) (data : CGData) (b x0 : Vec)
    (nitersIn : ℤ) : CGSt :=
  { num := { x := x0, r := cgInitR P data b x0, z := data.z, p := x0,
             Ap := cgInitAp P data x0, rtz := 0, beta := 0, alpha := 0,
             normr := cgInitNormr P data b x0, niters := nitersIn },
    tm := { cnt := 9,
            t1 := timer 8 - timer 5,
            t2 := timer 4 - timer 3,
            t3 := timer 2 - timer 1,
            t4 := timer 7 - timer 6,
            t5 := 0 } }

/-- The times[1..6] and times[0] accumulations performed after the loop
(CG.hpp lines 246-252), in source order; the final mytimer() call reads
the stream at the final call count and t_begin was reading 0. -/
def cgFinalTimes (timer : ℕ → ℚ) (timesIn : ℕ → ℚ) (tm : CGTmSt) : ℕ → ℚ :=
  updTimes (updTimes (updTimes (updTimes (updTimes (updTimes
    (updTimes timesIn 1 tm.t1) 2 tm.t2) 3 tm.t3) 4 tm.t4) 5 tm.t5) 6 0)
    0 (timer tm.cnt - timer 0)

/-- CG (CG.hpp lines 112-255): the initial residual phase, the iteration
loop, the times accumulations, and the constant return value 0.  nitersIn
and timesIn are the caller-provided contents of the out-parameters. -/
def CG (P : CGParams) (timer : ℕ → ℚ) (data : CGData) (b x0 : Vec)
    (nitersIn : ℤ) (timesIn : ℕ → ℚ) : CGOut :=
  let stF := cgLoop P timer (cgInitNormr P data b x0) P.maxIter 1
    (cgInitSt P timer data b x0 nitersIn)
  { status := 0,
    niters := stF.num.niters,
    normr := stF.num.normr,
    normr0 := cgInitNormr P data b x0,
    x := stF.num.x,
    r := stF.num.r,
    times := cgFinalTimes timer timesIn stF.tm }

lemma dot_congr (n : ℕ) (x x2 y y2 : Vec)
    (hx : ∀ i, i < n → x i = x2 i) (hy : ∀ i, i < n → y i = y2 i) :
    ComputeDotProduct n x y = ComputeDotProduct n x2 y2 := by
  unfold ComputeDotProduct
  refine Finset.sum_congr rfl ?_
  intro i hi
  rw [hx i (Finset.mem_range.1 hi), hy i (Finset.mem_range.1 hi)]

lemma spmv_congr (n : ℕ) (A : ℕ → ℕ → ℚ) (x x2 out : Vec)
    (hx : ∀ j, j < n → x j = x2 j) :
    ComputeSPMV n A x out = ComputeSPMV n A x2 out := by
  funext row
  unfold ComputeSPMV
  by_cases hr : row < n
  · rw [if_pos hr, if_pos hr]
    exact Finset.sum_congr rfl (fun j hj => by rw [hx j (Finset.mem_range.1 hj)])
  · rw [if_neg hr, if_neg hr]

/-- The iteration body exactly as the claim words it: z from the
preconditioner (or r); rtz = dot(r,z) recomputed this iteration; for k = 1,
p = z (beta untouched); for k >= 2, beta = rtz / previous rtz and
p = z + beta*p; Ap = A*p; alpha = this iteration's rtz / dot(p, Ap);
x += alpha*p; r -= alpha*Ap; normr = sqrt(dot(r,r)). -/
def cgBodySpec (P : CGParams) (k : ℕ) (s : CGNumSt) : CGNumSt :=
  let z := if P.doPreconditioning then P.MG s.r else s.r
  let rtz := ComputeDotProduct P.nrow s.r z
  let beta := if k = 1 then s.beta else rtz / s.rtz
  let p : Vec := if k = 1 then z else fun i => z i + beta * s.p i
  let Ap := ComputeSPMV P.nrow P.A p s.Ap
  let alpha := rtz / ComputeDotProduct P.nrow p Ap
  let x : Vec := fun i => s.x i + alpha * p i
  let r : Vec := fun i => s.r i - alpha * Ap i
  let normr := P.sqrtF (ComputeDotProduct P.nrow r r)
  { x := x, r := r, z := z, p := p, Ap := Ap, rtz := rtz, beta := beta,
    alpha := alpha, normr := normr, niters := (k : ℤ) }

/-- The code body and the claim's body agree on every scalar of the
iteration and on the n local rows of every vector. -/
def NumAgrees (n : ℕ) (c d : CGNumSt) : Prop :=
  c.rtz = d.rtz ∧ c.beta = d.beta ∧ c.alpha = d.alpha ∧ c.normr = d.normr ∧
  c.niters = d.niters ∧
  ∀ i, i < n →
    c.z i = d.z i ∧ c.p i = d.p i ∧ c.Ap i = d.Ap i ∧ c.x i = d.x i ∧ c.r i = d.r i

/-- Core of the C2 refinement, shared by the two branches: whenever the
branch delivers to the tail a p agreeing on the local rows with the spec's
p, the same z, the same freshly computed rtz, and the spec's beta, the tail
produces a state agreeing with the spec body's result. -/
lemma cgBodyTail_agrees (P : CGParams) (k : ℕ) (s : CGNumSt)
    (zv pc pd : Vec) (rtzv betav : ℚ)
    (hp : ∀ i, i < P.nrow → pc i = pd i) :
    NumAgrees P.nrow
      (cgBodyTail P k { s with z := zv, p := pc, rtz := rtzv, beta := betav })
      (let Ap := ComputeSPMV P.nrow P.A pd s.Ap
       let alpha := rtzv / ComputeDotProduct P.nrow pd Ap
       { x := fun i => s.x i + alpha * pd i,
         r := fun i => s.r i - alpha * Ap i,
         z := zv, p := pd, Ap := Ap, rtz := rtzv, beta := betav,
         alpha := alpha,
         normr := P.sqrtF (ComputeDotProduct P.nrow
           (fun i => s.r i - alpha * Ap i) (fun i => s.r i - alpha * Ap i)),
         niters := (k : ℤ) }) := by
  have hAp : ComputeSPMV P.nrow P.A pc s.Ap = ComputeSPMV P.nrow P.A pd s.Ap :=
    spmv_congr P.nrow P.A pc pd s.Ap hp
  have hpAp : ComputeDotProduct P.nrow pc (ComputeSPMV P.nrow P.A pc s.Ap) =
      ComputeDotProduct P.nrow pd (ComputeSPMV P.nrow P.A pd s.Ap) := by
    rw [hAp]
    exact dot_congr P.nrow pc pd _ _ hp (fun _ _ => rfl)
  have halpha :
      rtzv / ComputeDotProduct P.nrow pc (ComputeSPMV P.nrow P.A pc s.Ap) =
      rtzv / ComputeDotProduct P.nrow pd (ComputeSPMV P.nrow P.A pd s.Ap) := by
    rw [hpAp]
  simp only [cgBodyTail, NumAgrees]
  set Apc := ComputeSPMV P.nrow P.A pc s.Ap with hApc
  set Apd := ComputeSPMV P.nrow P.A pd s.Ap with hApd
  set ac := rtzv / ComputeDotProduct P.nrow pc Apc with hac
  set ad := rtzv / ComputeDotProduct P.nrow pd Apd with had
  have ha : ac = ad := halpha
  have hxv : ∀ i, i < P.nrow →
      ComputeWAXPBY P.nrow 1 s.x ac pc s.x i = s.x i + ad * pd i := by
    intro i hi
    simp only [ComputeWAXPBY, if_pos hi]
    rw [ha, hp i hi]
    ring
  have hrv : ∀ i, i < P.nrow →
      ComputeWAXPBY P.nrow 1 s.r (-ac) Apc s.r i = s.r i - ad * Apd i := by
    intro i hi
    simp only [ComputeWAXPBY, if_pos hi]
    rw [ha, hAp]
    ring
  refine ⟨by trivial, by trivial, ha, ?_, by trivial, ?_⟩
  · have hdr : ComputeDotProduct P.nrow
        (ComputeWAXPBY P.nrow 1 s.r (-ac) Apc s.r)
        (ComputeWAXPBY P.nrow 1 s.r (-ac) Apc s.r) =
        ComputeDotProduct P.nrow
          (fun i => s.r i - ad * Apd i) (fun i => s.r i - ad * Apd i) :=
      dot_congr P.nrow _ _ _ _ hrv hrv
    rw [hdr]
  · intro i hi
    exact ⟨by trivial, hp i hi, by rw [hAp], hxv i hi, hrv i hi⟩

/-- C2: the else-branch of each CG iteration (k >= 2) computes beta as this
iteration's rtz = dot(r,z) over the previous iteration's rtz, updates
p = z + beta*p, computes alpha as this iteration's rtz over dot(p, Ap)
(not a stale rtz), and then performs x += alpha*p, r -= alpha*Ap; on k = 1
it sets p = z and rtz = dot(r,z).  Stated as agreement of the transcribed
source body with the body the claim describes, on all iteration scalars and
the n local rows of every vector. -/
theorem C2_cg_iteration_scalars (P : CGParams) (k : ℕ) (s : CGNumSt) :
    NumAgrees P.nrow (cgBodyNum P k s) (cgBodySpec P k s) := by
  by_cases hk : k = 1
  · have hcode : cgBodyNum P k s =
        cgBodyTail P k
          { s with
            z := if P.doPreconditioning then P.MG s.r else s.r,
            p := ComputeWAXPBY P.nrow 1
              (if P.doPreconditioning then P.MG s.r else s.r) 0
              (if P.doPreconditioning then P.MG s.r else s.r) s.p,
            rtz := ComputeDotProduct P.nrow s.r
              (if P.doPreconditioning then P.MG s.r else s.r) } := by
      simp only [cgBodyNum]
      rw [if_pos hk]
    have hp : ∀ i, i < P.nrow →
        ComputeWAXPBY P.nrow 1
          (if P.doPreconditioning then P.MG s.r else s.r) 0
          (if P.doPreconditioning then P.MG s.r else s.r) s.p i =
        (if P.doPreconditioning then P.MG s.r else s.r) i := by
      intro i hi
      simp only [ComputeWAXPBY, if_pos hi]
      ring
    have hmain := cgBodyTail_agrees P k s
      (if P.doPreconditioning then P.MG s.r else s.r)
      (ComputeWAXPBY P.nrow 1
        (if P.doPreconditioning then P.MG s.r else s.r) 0
        (if P.doPreconditioning then P.MG s.r else s.r) s.p)
      (if P.doPreconditioning then P.MG s.r else s.r)
      (ComputeDotProduct P.nrow s.r
        (if P.doPreconditioning then P.MG s.r else s.r))
      s.beta hp
    rw [hcode]
    have hspec : cgBodySpec P k s =
        (let Ap := ComputeSPMV P.nrow P.A
            (if P.doPreconditioning then P.MG s.r else s.r) s.Ap
         let alpha := ComputeDotProduct P.nrow s.r
             (if P.doPreconditioning then P.MG s.r else s.r) /
           ComputeDotProduct P.nrow
             (if P.doPreconditioning then P.MG s.r else s.r) Ap
         { x := fun i => s.x i + alpha *
             (if P.doPreconditioning then P.MG s.r else s.r) i,
           r := fun i => s.r i - alpha * Ap i,
           z := if P.doPreconditioning then P.MG s.r else s.r,
           p := if P.doPreconditioning then P.MG s.r else s.r,
           Ap := Ap,
           rtz := ComputeDotProduct P.nrow s.r
             (if P.doPreconditioning then P.MG s.r else s.r),
           beta := s.beta,
           alpha := alpha,
           normr := P.sqrtF (ComputeDotProduct P.nrow
             (fun i => s.r i - alpha * Ap i) (fun i => s.r i - alpha * Ap i)),
           niters := (k : ℤ) } : CGNumSt) := by
      simp only [cgBodySpec]
      rw [if_pos hk, if_pos hk]
    rw [hspec]
    exact hmain
  · have hcode : cgBodyNum P k s =
        cgBodyTail P k
          { s with
            z := if P.doPreconditioning then P.MG s.r else s.r,
            p := ComputeWAXPBY P.nrow 1
              (if P.doPreconditioning then P.MG s.r else s.r)
              (ComputeDotProduct P.nrow s.r
                (if P.doPreconditioning then P.MG s.r else s.r) / s.rtz)
              s.p s.p,
            rtz := ComputeDotProduct P.nrow s.r
              (if P.doPreconditioning then P.MG s.r else s.r),
            beta := ComputeDotProduct P.nrow s.r
              (if P.doPreconditioning then P.MG s.r else s.r) / s.rtz } := by
      simp only [cgBodyNum]
      rw [if_neg hk]
    have hp : ∀ i, i < P.nrow →
        ComputeWAXPBY P.nrow 1
          (if P.doPreconditioning then P.MG s.r else s.r)
          (ComputeDotProduct P.nrow s.r
            (if P.doPreconditioning then P.MG s.r else s.r) / s.rtz)
          s.p s.p i =
        (if P.doPreconditioning then P.MG s.r else s.r) i +
          (ComputeDotProduct P.nrow s.r
            (if P.doPreconditioning then P.MG s.r else s.r) / s.rtz) * s.p i := by
      intro i hi
      simp only [ComputeWAXPBY, if_pos hi]
      ring
    have hmain := cgBodyTail_agrees P k s
      (if P.doPreconditioning then P.MG s.r else s.r)
      (ComputeWAXPBY P.nrow 1
        (if P.doPreconditioning then P.MG s.r else s.r)
        (ComputeDotProduct P.nrow s.r
          (if P.doPreconditioning then P.MG s.r else s.r) / s.rtz)
        s.p s.p)
      (fun i => (if P.doPreconditioning then P.MG s.r else s.r) i +
        (ComputeDotProduct P.nrow s.r
          (if P.doPreconditioning then P.MG s.r else s.r) / s.rtz) * s.p i)
      (ComputeDotProduct P.nrow s.r
        (if P.doPreconditioning then P.MG s.r else s.r))
      (ComputeDotProduct P.nrow s.r
        (if P.doPreconditioning then P.MG s.r else s.r) / s.rtz)
      hp
    rw [hcode]
    have hspec : cgBodySpec P k s =
        (let Ap := ComputeSPMV P.nrow P.A
            (fun i => (if P.doPreconditioning then P.MG s.r else s.r) i +
              (ComputeDotProduct P.nrow s.r
                (if P.doPreconditioning then P.MG s.r else s.r) / s.rtz) * s.p i)
            s.Ap
         let alpha := ComputeDotProduct P.nrow s.r
             (if P.doPreconditioning then P.MG s.r else s.r) /
           ComputeDotProduct P.nrow
             (fun i => (if P.doPreconditioning then P.MG s.r else s.r) i +
               (ComputeDotProduct P.nrow s.r
                 (if P.doPreconditioning then P.MG s.r else s.r) / s.rtz) * s.p i)
             Ap
         { x := fun i => s.x i + alpha *
             ((if P.doPreconditioning then P.MG s.r else s.r) i +
               (ComputeDotProduct P.nrow s.r
                 (if P.doPreconditioning then P.MG s.r else s.r) / s.rtz) * s.p i),
           r := fun i => s.r i - alpha * Ap i,
           z := if P.doPreconditioning then P.MG s.r else s.r,
           p := fun i => (if P.doPreconditioning then P.MG s.r else s.r) i +
             (ComputeDotProduct P.nrow s.r
               (if P.doPreconditioning then P.MG s.r else s.r) / s.rtz) * s.p i,
           Ap := Ap,
           rtz := ComputeDotProduct P.nrow s.r
             (if P.doPreconditioning then P.MG s.r else s.r),
           beta := ComputeDotProduct P.nrow s.r
             (if P.doPreconditioning then P.MG s.r else s.r) / s.rtz,
           alpha := alpha,
           normr := P.sqrtF (ComputeDotProduct P.nrow
             (fun i => s.r i - alpha * Ap i) (fun i => s.r i - alpha * Ap i)),
           niters := (k : ℤ) } : CGNumSt) := by
      simp only [cgBodySpec]
      rw [if_neg hk, if_neg hk]
    rw [hspec]
    exact hmain

lemma cgBodyNum_niters (P : CGParams) (k : ℕ) (s : CGNumSt) :
    (cgBodyNum P k s).niters = (k : ℤ) := by
  by_cases hk : k = 1
  · simp only [cgBodyNum, cgBodyTail]
    rw [if_pos hk]
  · simp only [cgBodyNum, cgBodyTail]
    rw [if_neg hk]

/-- As long as the counter check still allows an iteration, the loop ends
either because the residual guard fails on the final state or because the
counter ran out, in which case the last body execution stored its k, namely
k0 + fuel - 1, into niters. -/
lemma cgLoop_stop (P : CGParams) (timer : ℕ → ℚ) (normr0 : ℚ) :
    ∀ fuel k (s : CGSt), 1 ≤ fuel →
      ¬ (P.tolerance <
          (cgLoop P timer normr0 fuel k s).num.normr / normr0) ∨
      (cgLoop P timer normr0 fuel k s).num.niters = (k : ℤ) + fuel - 1 := by
  intro fuel
  induction fuel with
  | zero => intro k s h; omega
  | succ f ih =>
      intro k s _
      simp only [cgLoop]
      by_cases hg : P.tolerance < s.num.normr / normr0
      · rw [if_pos hg]
        rcases Nat.eq_zero_or_pos f with h0 | hpos
        · subst h0
          right
          show (cgBody P timer k s).num.niters = (k : ℤ) + (0 + 1 : ℕ) - 1
          have := cgBodyNum_niters P k s.num
          simp only [cgBody] at *
          rw [this]
          push_cast
          ring
        · rcases ih (k + 1) (cgBody P timer k s) hpos with h | h
          · left; exact h
          · right
            rw [h]
            push_cast
            ring
      · rw [if_neg hg]
        left
        exact hg

/-- If the residual guard fails on entry the loop body never runs. -/
lemma cgLoop_guard_false (P : CGParams) (timer : ℕ → ℚ) (normr0 : ℚ)
    (fuel k : ℕ) (s : CGSt)
    (h : ¬ P.tolerance < s.num.normr / normr0) :
    cgLoop P timer normr0 fuel k s = s := by
  cases fuel with
  | zero => rfl
  | succ f => simp only [cgLoop]; rw [if_neg h]

lemma CG_status_eq (P : CGParams) (timer : ℕ → ℚ) (data : CGData)
    (b x0 : Vec) (nitersIn : ℤ) (timesIn : ℕ → ℚ) :
    (CG P timer data b x0 nitersIn timesIn).status = 0 := rfl

lemma CG_niters_eq (P : CGParams) (timer : ℕ → ℚ) (data : CGData)
    (b x0 : Vec) (nitersIn : ℤ) (timesIn : ℕ → ℚ) :
    (CG P timer data b x0 nitersIn timesIn).niters =
      (cgLoop P timer (cgInitNormr P data b x0) P.maxIter 1
        (cgInitSt P timer data b x0 nitersIn)).num.niters := rfl

lemma CG_normr_eq (P : CGParams) (timer : ℕ → ℚ) (data : CGData)
    (b x0 : Vec) (nitersIn : ℤ) (timesIn : ℕ → ℚ) :
    (CG P timer data b x0 nitersIn timesIn).normr =
      (cgLoop P timer (cgInitNormr P data b x0) P.maxIter 1
        (cgInitSt P timer data b x0 nitersIn)).num.normr := rfl

lemma CG_normr0_eq (P : CGParams) (timer : ℕ → ℚ) (data : CGData)
    (b x0 : Vec) (nitersIn : ℤ) (timesIn : ℕ → ℚ) :
    (CG P timer data b x0 nitersIn timesIn).normr0 =
      cgInitNormr P data b x0 := rfl

lemma CG_x_eq (P : CGParams) (timer : ℕ → ℚ) (data : CGData)
    (b x0 : Vec) (nitersIn : ℤ) (timesIn : ℕ → ℚ) :
    (CG P timer data b x0 nitersIn timesIn).x =
      (cgLoop P timer (cgInitNormr P data b x0) P.maxIter 1
        (cgInitSt P timer data b x0 nitersIn)).num.x := rfl

lemma CG_r_eq (P : CGParams) (timer : ℕ → ℚ) (data : CGData)
    (b x0 : Vec) (nitersIn : ℤ) (timesIn : ℕ → ℚ) :
    (CG P timer data b x0 nitersIn timesIn).r =
      (cgLoop P timer (cgInitNormr P data b x0) P.maxIter 1
        (cgInitSt P timer data b x0 nitersIn)).num.r := rfl

lemma CG_times_eq (P : CGParams) (timer : ℕ → ℚ) (data : CGData)
    (b x0 : Vec) (nitersIn : ℤ) (timesIn : ℕ → ℚ) :
    (CG P timer data b x0 nitersIn timesIn).times =
      cgFinalTimes timer timesIn
        (cgLoop P timer (cgInitNormr P data b x0) P.maxIter 1
          (cgInitSt P timer data b x0 nitersIn)).tm := rfl

lemma cgFinalTimes_add (timer timesIn : ℕ → ℚ) (tm : CGTmSt) (j : ℕ) :
    cgFinalTimes timer timesIn tm j =
      timesIn j + cgFinalTimes timer (fun _ => 0) tm j := by
  rcases Nat.lt_or_ge j 7 with hj | hj
  · interval_cases j <;> (simp [cgFinalTimes, updTimes]; try ring)
  · have h0 : ¬ j = 0 := by omega
    have h1 : ¬ j = 1 := by omega
    have h2 : ¬ j = 2 := by omega
    have h3 : ¬ j = 3 := by omega
    have h4 : ¬ j = 4 := by omega
    have h5 : ¬ j = 5 := by omega
    have h6 : ¬ j = 6 := by omega
    simp [cgFinalTimes, updTimes, h0, h1, h2, h3, h4, h5, h6]

lemma cgFinalTimes_frame (timer timesIn : ℕ → ℚ) (tm : CGTmSt) (j : ℕ)
    (hj : 7 ≤ j) : cgFinalTimes timer timesIn tm j = timesIn j := by
  have h0 : ¬ j = 0 := by omega
  have h1 : ¬ j = 1 := by omega
  have h2 : ¬ j = 2 := by omega
  have h3 : ¬ j = 3 := by omega
  have h4 : ¬ j = 4 := by omega
  have h5 : ¬ j = 5 := by omega
  have h6 : ¬ j = 6 := by omega
  simp [cgFinalTimes, updTimes, h0, h1, h2, h3, h4, h5, h6]

/-- C3: the CG driver stops exactly by the loop guard: it returns status
zero always, and on return either the scaled residual normr/normr0 meets
the tolerance (Converged) or niters holds maxIter, the loop having used
every allowed iteration (MaxIterReached); numeric non-convergence takes no
other path. -/
theorem C3_cg_stop_and_status (P : CGParams) (timer : ℕ → ℚ) (data : CGData)
    (b x0 : Vec) (nitersIn : ℤ) (timesIn : ℕ → ℚ) (hmax : 1 ≤ P.maxIter) :
    (CG P timer data b x0 nitersIn timesIn).status = 0 ∧
    ((CG P timer data b x0 nitersIn timesIn).normr /
        (CG P timer data b x0 nitersIn timesIn).normr0 ≤ P.tolerance ∨
      (CG P timer data b x0 nitersIn timesIn).niters = (P.maxIter : ℤ)) := by
  constructor
  · exact CG_status_eq P timer data b x0 nitersIn timesIn
  · rcases cgLoop_stop P timer (cgInitNormr P data b x0) P.maxIter 1
        (cgInitSt P timer data b x0 nitersIn) hmax with h | h
    · left
      rw [CG_normr_eq, CG_normr0_eq]
      exact not_lt.1 h
    · right
      rw [CG_niters_eq, h]
      push_cast
      ring

/-- Concrete CG instance for the witnesses: one local row, A = [[1]],
identity preconditioner and square root, tolerance 0, one allowed
iteration. -/
def cgExP : CGParams :=
  { nrow := 1, A := fun _ _ => 1, MG := fun v => v,
    doPreconditioning := false, tolerance := 0, maxIter := 1,
    sqrtF := fun q => q }

/-- Preallocated CGData contents for the witnesses: all zero. -/
def cgExData : CGData :=
  { r := fun _ => 0, z := fun _ => 0, p := fun _ => 0, Ap := fun _ => 0 }

/-- Timer stream for the witnesses. -/
def cgExTimer : ℕ → ℚ := fun _ => 0

/-- The all-zero scalar vector. -/
def zeroVec : Vec := fun _ => 0

/-- The all-one scalar vector. -/
def oneVec : Vec := fun _ => 1

/-- C3 witness: on the concrete instance (b = 1, x0 = 0) with maxIter = 1,
the theorem applies. -/
theorem C3_cg_stop_and_status_witness :
    1 ≤ cgExP.maxIter ∧
    ((CG cgExP cgExTimer cgExData oneVec zeroVec 0 (fun _ => 0)).status = 0 ∧
      ((CG cgExP cgExTimer cgExData oneVec zeroVec 0 (fun _ => 0)).normr /
          (CG cgExP cgExTimer cgExData oneVec zeroVec 0 (fun _ => 0)).normr0 ≤
            cgExP.tolerance ∨
        (CG cgExP cgExTimer cgExData oneVec zeroVec 0 (fun _ => 0)).niters =
          (cgExP.maxIter : ℤ))) :=
  ⟨by decide,
    C3_cg_stop_and_status cgExP cgExTimer cgExData oneVec zeroVec 0
      (fun _ => 0) (by decide)⟩

/-- C9: when the loop body executes zero times (the initial scaled residual
is not above the tolerance, which with normr0 = normr covers the 0/0 case
arising when the initial residual is zero), CG still returns 0 and sets
normr and normr0 to the initial residual norm, but niters keeps the value
the caller passed in: CG never initializes it. -/
theorem C9_cg_zero_iterations_niters (P : CGParams) (timer : ℕ → ℚ)
    (data : CGData) (b x0 : Vec) (nitersIn : ℤ) (timesIn : ℕ → ℚ)
    (h : ¬ P.tolerance <
      cgInitNormr P data b x0 / cgInitNormr P data b x0) :
    (CG P timer data b x0 nitersIn timesIn).niters = nitersIn ∧
    (CG P timer data b x0 nitersIn timesIn).status = 0 ∧
    (CG P timer data b x0 nitersIn timesIn).normr = cgInitNormr P data b x0 ∧
    (CG P timer data b x0 nitersIn timesIn).normr0 = cgInitNormr P data b x0 := by
  have hstop := cgLoop_guard_false P timer (cgInitNormr P data b x0) P.maxIter 1
    (cgInitSt P timer data b x0 nitersIn) h
  refine ⟨?_, CG_status_eq P timer data b x0 nitersIn timesIn, ?_,
    CG_normr0_eq P timer data b x0 nitersIn timesIn⟩
  · rw [CG_niters_eq, hstop]
    rfl
  · rw [CG_normr_eq, hstop]
    rfl

/-- C9 witness: b = 0 and x0 = 0 give a zero initial residual, the guard
0/0 > 0 fails, and niters keeps the caller's 42. -/
theorem C9_cg_zero_iterations_witness :
    (¬ cgExP.tolerance <
        cgInitNormr cgExP cgExData zeroVec zeroVec /
          cgInitNormr cgExP cgExData zeroVec zeroVec) ∧
    ((CG cgExP cgExTimer cgExData zeroVec zeroVec 42 (fun _ => 0)).niters = 42 ∧
      (CG cgExP cgExTimer cgExData zeroVec zeroVec 42 (fun _ => 0)).status = 0 ∧
      (CG cgExP cgExTimer cgExData zeroVec zeroVec 42 (fun _ => 0)).normr =
        cgInitNormr cgExP cgExData zeroVec zeroVec ∧
      (CG cgExP cgExTimer cgExData zeroVec zeroVec 42 (fun _ => 0)).normr0 =
        cgInitNormr cgExP cgExData zeroVec zeroVec) := by
  have hinit : cgInitNormr cgExP cgExData zeroVec zeroVec = 0 := by
    norm_num [cgInitNormr, cgInitR, cgInitAp, ComputeDotProduct,
      ComputeWAXPBY, ComputeSPMV, cgExP, cgExData, zeroVec,
      Finset.sum_range_one]
  have h : ¬ cgExP.tolerance <
      cgInitNormr cgExP cgExData zeroVec zeroVec /
        cgInitNormr cgExP cgExData zeroVec zeroVec := by
    rw [hinit]
    norm_num [cgExP]
  exact ⟨h, C9_cg_zero_iterations_niters cgExP cgExTimer cgExData zeroVec
    zeroVec 42 (fun _ => 0) h⟩

/-- Two loop runs with different timer streams and equal numeric states
keep equal numeric states: the guard and the numeric body never read the
timer or the timing locals. -/
lemma cgLoop_num_timer_indep (P : CGParams) (tA tB : ℕ → ℚ) (normr0 : ℚ) :
    ∀ fuel k (sA sB : CGSt), sA.num = sB.num →
      (cgLoop P tA normr0 fuel k sA).num =
      (cgLoop P tB normr0 fuel k sB).num := by
  intro fuel
  induction fuel with
  | zero =>
      intro k sA sB h
      exact h
  | succ f ih =>
      intro k sA sB h
      simp only [cgLoop]
      by_cases hg : P.tolerance < sA.num.normr / normr0
      · have hgB : P.tolerance < sB.num.normr / normr0 := by rw [← h]; exact hg
        rw [if_pos hg, if_pos hgB]
        refine ih (k + 1) _ _ ?_
        simp only [cgBody]
        rw [h]
      · have hgB : ¬ P.tolerance < sB.num.normr / normr0 := by rw [← h]; exact hg
        rw [if_neg hg, if_neg hgB]
        exact h

/-- C8: timing is a pure side effect.  Two CG runs differing only in the
timer readings produce identical niters, normr, normr0, status and result
vectors; and the timer readings flow only into the seven times[0..6]
accumulation buckets, each of which is only added to (times[j] equals the
caller's value plus the bucket's run delta, and entries beyond the seven
buckets are untouched). -/
theorem C8_cg_timer_is_pure_side_effect (P : CGParams) (tA tB : ℕ → ℚ)
    (data : CGData) (b x0 : Vec) (nitersIn : ℤ) (timesIn : ℕ → ℚ) :
    (CG P tA data b x0 nitersIn timesIn).status =
      (CG P tB data b x0 nitersIn timesIn).status ∧
    (CG P tA data b x0 nitersIn timesIn).niters =
      (CG P tB data b x0 nitersIn timesIn).niters ∧
    (CG P tA data b x0 nitersIn timesIn).normr =
      (CG P tB data b x0 nitersIn timesIn).normr ∧
    (CG P tA data b x0 nitersIn timesIn).normr0 =
      (CG P tB data b x0 nitersIn timesIn).normr0 ∧
    (CG P tA data b x0 nitersIn timesIn).x =
      (CG P tB data b x0 nitersIn timesIn).x ∧
    (CG P tA data b x0 nitersIn timesIn).r =
      (CG P tB data b x0 nitersIn timesIn).r ∧
    (∀ j, (CG P tA data b x0 nitersIn timesIn).times j =
      timesIn j + (CG P tA data b x0 nitersIn (fun _ => 0)).times j) ∧
    (∀ j, 7 ≤ j → (CG P tA data b x0 nitersIn timesIn).times j = timesIn j) := by
  have hnum :
      (cgLoop P tA (cgInitNormr P data b x0) P.maxIter 1
        (cgInitSt P tA data b x0 nitersIn)).num =
      (cgLoop P tB (cgInitNormr P data b x0) P.maxIter 1
        (cgInitSt P tB data b x0 nitersIn)).num :=
    cgLoop_num_timer_indep P tA tB (cgInitNormr P data b x0) P.maxIter 1
      (cgInitSt P tA data b x0 nitersIn) (cgInitSt P tB data b x0 nitersIn) rfl
  refine ⟨?_, ?_, ?_, ?_, ?_, ?_, ?_, ?_⟩
  · rw [CG_status_eq, CG_status_eq]
  · rw [CG_niters_eq, CG_niters_eq]
    exact congrArg CGNumSt.niters hnum
  · rw [CG_normr_eq, CG_normr_eq]
    exact congrArg CGNumSt.normr hnum
  · rw [CG_normr0_eq, CG_normr0_eq]
  · rw [CG_x_eq, CG_x_eq]
    exact congrArg CGNumSt.x hnum
  · rw [CG_r_eq, CG_r_eq]
    exact congrArg CGNumSt.r hnum
  · intro j
    rw [CG_times_eq, CG_times_eq]
    exact cgFinalTimes_add tA timesIn _ j
  · intro j hj
    rw [CG_times_eq]
    exact cgFinalTimes_frame tA timesIn _ j hj

end Cody
